import Mathlib

/-!
Verification of the two core algorithms of `dask/utils.py`:

* `textblock` — line-aligned byte-range extraction from a seekable byte
  stream, with an optional path/codec front end backed by the global
  codec registry `opens`;
* `pseudorandom` — deterministic weighted categorical sampling seeded by
  an integer key.

The byte stream is embedded as a `List ℕ` of byte values together with an
explicit file position (`Handle`), and each Python file operation
(`seek`, `readline`, `read`, `tell`) becomes a function on `Handle`.
`seek` to a negative offset raises in Python, so it returns an `Option`;
the whole of `textblock` therefore returns `Option`, with `none`
modelling a raised exception.  Probabilities are embedded as exact
rationals.
-/

set_option linter.unusedVariables false

/-- The newline byte, `\n`. -/
def NL : ℕ := 10

/-- Index of the first newline at position `p` or later, if any
(`s[p:].index(b'\n') + p`). -/
def findNl (s : List ℕ) (p : ℕ) : Option ℕ :=
  ((s.drop p).findIdx? (fun b => b == NL)).map (fun i => p + i)

/-- The file position after `file.readline()` issued at position `p`:
one past the first newline at or after `p`; if there is none, the end of
the stream (or `p` itself when `p` already lies beyond the end, since
reading past end-of-stream moves nothing). -/
def lineEnd (s : List ℕ) (p : ℕ) : ℕ :=
  match findNl s p with
  | some i => i + 1
  | none => max p s.length

/-- A seekable readable byte stream: its contents plus the current file
position, as maintained by Python file objects. -/
structure Handle where
  data : List ℕ
  pos : ℕ
deriving Repr, DecidableEq

/-- `file.seek(off)`: raises (`none`) on a negative offset, otherwise
sets the position (seeking past end-of-stream is allowed). -/
def seekH (f : Handle) (off : ℤ) : Option Handle :=
  if off < 0 then none else some { data := f.data, pos := off.toNat }

/-- `file.readline()`: advance the position past the next newline (or to
end-of-stream); the line's contents are irrelevant to `textblock`. -/
def readlineH (f : Handle) : Handle :=
  { data := f.data, pos := lineEnd f.data f.pos }

/-- `file.tell()`. -/
def tellH (f : Handle) : ℕ := f.pos

/-- `file.read()`: the bytes from the current position to end-of-stream,
and the handle afterwards. -/
def readAllH (f : Handle) : List ℕ × Handle :=
  (f.data.drop f.pos, { data := f.data, pos := max f.pos f.data.length })

/-- `file.read(n)` with a possibly negative count: a negative count reads
to end-of-stream (CPython semantics), a non-negative count reads at most
`n` bytes. -/
def readH (f : Handle) (n : ℤ) : List ℕ × Handle :=
  if n < 0 then readAllH f
  else
    let chunk := (f.data.drop f.pos).take n.toNat
    (chunk, { data := f.data, pos := f.pos + chunk.length })

/-- The stream branch of `dask.utils.textblock`, threading the handle
explicitly.  Mirrors the source line by line:

    if start:
        file.seek(start - 1)
        line = file.readline() # burn a line
        start = file.tell()
    if stop is None:
        file.seek(start)
        return file.read()
    stop -= 1
    file.seek(stop)
    line = file.readline()
    stop = file.tell()
    file.seek(start)
    return file.read(stop - start)

`none` models a raised exception (the only possible one here is a
negative seek offset). -/
def textblockH (f : Handle) (start : ℕ) (stop : Option ℕ) :
    Option (List ℕ × Handle) :=
  let s1 : Option (Handle × ℕ) :=
    if start ≠ 0 then
      match seekH f ((start : ℤ) - 1) with
      | none => none
      | some f1 =>
        let f2 := readlineH f1
        some (f2, tellH f2)
    else some (f, start)
  match s1 with
  | none => none
  | some (f2, start2) =>
    match stop with
    | none =>
      match seekH f2 (start2 : ℤ) with
      | none => none
      | some f3 => some (readAllH f3)
    | some st =>
      match seekH f2 ((st : ℤ) - 1) with
      | none => none
      | some f4 =>
        let f5 := readlineH f4
        let stop2 := tellH f5
        match seekH f5 (start2 : ℤ) with
        | none => none
        | some f6 => some (readH f6 ((stop2 : ℤ) - (start2 : ℤ)))

/-- `textblock` on a freshly opened stream (position 0), returning only
the extracted bytes. -/
def textblock (s : List ℕ) (start : ℕ) (stop : Option ℕ) : Option (List ℕ) :=
  (textblockH { data := s, pos := 0 } start stop).map Prod.fst

/-! ### The path/codec front end of `textblock` -/

/-- An opener from the codec registry: plain `open`, or `gzip.open`. -/
inductive Opener
  | plain
  | gz
deriving DecidableEq, Repr

/-- The global codec registry `opens = {'gzip': gzip.open}`. -/
def opens (c : String) : Option Opener :=
  if c = "gzip" then some Opener.gz else none

/-- `opens.get(compression, open)`: registry lookup with plain `open` as
the default, so an absent or unknown codec name falls back to the plain
opener. -/
def myopen (compression : Option String) : Opener :=
  match compression with
  | none => Opener.plain
  | some c => (opens c).getD Opener.plain

/-- The path branch of `textblock`: resolve the opener from the registry,
open the file, recurse on the fresh handle, close.  `fs` maps paths to
raw file bytes (`none` when the file does not exist, in which case the
open raises) and `gunzip` is the gzip decoder, so a handle produced by
`gzip.open` reads decompressed bytes. -/
def textblockPath (fs : String → Option (List ℕ)) (gunzip : List ℕ → List ℕ)
    (path : String) (start : ℕ) (stop : Option ℕ)
    (compression : Option String) : Option (List ℕ) :=
  match fs path with
  | none => none
  | some raw =>
    match myopen compression with
    | Opener.plain => textblock raw start stop
    | Opener.gz => textblock (gunzip raw) start stop

/-! ### `pseudorandom` -/

/-- `np.cumsum([0] + p)`: the cumulative boundary sequence
`cp[i] = p[0] + ... + p[i-1]`, of length `p.length + 1`, starting at 0. -/
def cumsum (p : List ℚ) : List ℚ :=
  (List.range (p.length + 1)).map (fun i => (p.take i).sum)

/-- `np.allclose(a, b)` on scalars, with numpy's default tolerances
`rtol = 1e-5`, `atol = 1e-8`: `|a - b| <= atol + rtol * |b|`. -/
def allclose (a b : ℚ) : Prop :=
  |a - b| ≤ 1 / 100000000 + 1 / 100000 * |b|

instance (a b : ℚ) : Decidable (allclose a b) :=
  inferInstanceAs (Decidable (|a - b| ≤ 1 / 100000000 + 1 / 100000 * |b|))

/-- Modelled from the spec: the seedable uniform random source
(`np.random.RandomState(key).random_sample(n)` comes from numpy, which is
outside this repository).  The spec requires only a deterministic,
reproducible, ordered sequence of uniform draws in `[0, 1)` that is a
pure function of the seed; this embeds it as a linear-congruential mix of
the seed and the draw index, each draw an exact rational in `[0, 1)`. -/
def randomSample (key : ℤ) (n : ℕ) : List ℚ :=
  (List.range n).map (fun j =>
    ((((key % 2147483647).toNat * 1103515245 + j * 12345 + 12345) % 2147483648 : ℕ) : ℚ)
      / (2147483648 : ℚ))

/-- Storage of a bucket index in the output array of dtype `'i1'`
(signed 8-bit): the value wraps modulo 256 into `[-128, 127]`. -/
def int8 (i : ℕ) : ℤ :=
  (((i : ℤ) + 128) % 256) - 128

/-- The final value of one output cell after the masked-write loop

    for i, (low, high) in enumerate(zip(cp[:-1], cp[1:])):
        out[(x >= low) & (x < high)] = i

for a cell whose draw is `x`: buckets are scanned in ascending order and
each match overwrites, so the cell holds the last matching bucket index;
`none` means no bucket matched and the cell keeps the uninitialized
contents of `np.empty`. -/
def bucketAssign (cp : List ℚ) (x : ℚ) : Option ℕ :=
  ((cp.dropLast).zip (cp.drop 1)).enum.foldl
    (fun acc e => if e.2.1 ≤ x ∧ x < e.2.2 then some e.1 else acc) none

/-- `dask.utils.pseudorandom`.  `g` is the process-global numpy random
state (`np.random`), threaded explicitly to express that the function
neither reads nor advances it: the draws come from a fresh source seeded
by `key`.  The first component is the output array: `none` models a
failed assertion (Python raises `AssertionError`); inside the array,
a cell that no bucket writes keeps the uninitialized contents of
`np.empty`, modelled as `Option.none`; written cells hold the int8-stored
bucket index. -/
def pseudorandom (g : ℕ) (n : ℕ) (p : List ℚ) (key : ℤ) :
    Option (List (Option ℤ)) × ℕ :=
  let cp := cumsum p
  if allclose 1 (cp.getLastD 0) ∧ p.length < 256 then
    let x := randomSample key n
    (some (x.map (fun xi => (bucketAssign cp xi).map int8)), g)
  else (none, g)

/-- The 15-byte example stream `"123\n456\n789\nabc"` from the source's
docstring. -/
def exStream : List ℕ :=
  [49, 50, 51, 10, 52, 53, 54, 10, 55, 56, 57, 10, 97, 98, 99]

/-! ### Helper lemmas about `lineEnd` and the closed form of `textblockH` -/

theorem findNl_some_spec {s : List ℕ} {p i : ℕ} (h : findNl s p = some i) :
    p ≤ i ∧ i < s.length ∧ s[i]? = some NL := by
  unfold findNl at h
  rcases Option.map_eq_some'.1 h with ⟨j, hj, rfl⟩
  rcases List.findIdx?_eq_some_iff_getElem.1 hj with ⟨hlen, hpred, -⟩
  have hlen' : j < s.length - p := by
    simpa using hlen
  have hv : (s.drop p)[j]? = some NL := by
    rw [List.getElem?_eq_getElem hlen]
    simpa using hpred
  refine ⟨Nat.le_add_right _ _, by omega, ?_⟩
  rw [← List.getElem?_drop]
  exact hv

theorem lineEnd_eq_some {s : List ℕ} {p i : ℕ} (h : findNl s p = some i) :
    lineEnd s p = i + 1 := by
  unfold lineEnd
  rw [h]

theorem lineEnd_eq_none {s : List ℕ} {p : ℕ} (h : findNl s p = none) :
    lineEnd s p = max p s.length := by
  unfold lineEnd
  rw [h]

theorem lineEnd_lower {s : List ℕ} {p : ℕ} : p ≤ lineEnd s p := by
  cases h : findNl s p with
  | none =>
    rw [lineEnd_eq_none h]
    exact Nat.le_max_left _ _
  | some i =>
    rw [lineEnd_eq_some h]
    have := (findNl_some_spec h).1
    omega

theorem lineEnd_cases (s : List ℕ) (p : ℕ) :
    (∃ i, p ≤ i ∧ i < s.length ∧ s[i]? = some NL ∧ lineEnd s p = i + 1) ∨
    (s.length ≤ lineEnd s p) := by
  cases h : findNl s p with
  | none =>
    rw [lineEnd_eq_none h]
    exact Or.inr (Nat.le_max_right _ _)
  | some i =>
    obtain ⟨h1, h2, h3⟩ := findNl_some_spec h
    exact Or.inl ⟨i, h1, h2, h3, lineEnd_eq_some h⟩

/-- The seek-adjusted start position: `start` itself when `start == 0`
(no line burned), otherwise the position after the line containing byte
`start - 1`. -/
def adjStart (s : List ℕ) (start : ℕ) : ℕ :=
  if start = 0 then 0 else lineEnd s (start - 1)

theorem textblockH_none_eq (s : List ℕ) (pos start : ℕ) :
    textblockH ⟨s, pos⟩ start none =
      some (s.drop (adjStart s start),
        ⟨s, max (adjStart s start) s.length⟩) := by
  have hn : ∀ m : ℕ, ¬ ((m : ℤ) < 0) := fun m =>
    Int.not_lt.mpr (Int.natCast_nonneg m)
  unfold textblockH adjStart seekH readlineH tellH readAllH
  by_cases h : start = 0
  · simp [h, hn, Int.toNat_natCast]
  · simp [h, hn, Int.toNat_natCast,
      show ¬ ((start : ℤ) - 1 < 0) from by omega,
      show ((start : ℤ) - 1).toNat = start - 1 from by omega]

theorem textblockH_some_zero (s : List ℕ) (pos start : ℕ) :
    textblockH ⟨s, pos⟩ start (some 0) = none := by
  unfold textblockH seekH readlineH tellH
  by_cases h : start = 0 <;> simp [h]

theorem textblockH_some_eq (s : List ℕ) (pos start st : ℕ) (hst : 1 ≤ st) :
    textblockH ⟨s, pos⟩ start (some st) =
      (if (lineEnd s (st - 1) : ℤ) - (adjStart s start : ℤ) < 0 then
        some (s.drop (adjStart s start),
          ⟨s, max (adjStart s start) s.length⟩)
      else
        some ((s.drop (adjStart s start)).take
            (lineEnd s (st - 1) - adjStart s start),
          ⟨s, adjStart s start +
            ((s.drop (adjStart s start)).take
              (lineEnd s (st - 1) - adjStart s start)).length⟩)) := by
  have hn : ∀ m : ℕ, ¬ ((m : ℤ) < 0) := fun m =>
    Int.not_lt.mpr (Int.natCast_nonneg m)
  unfold textblockH adjStart seekH readlineH tellH readH readAllH
  have h1 : ¬ ((st : ℤ) - 1 < 0) := by omega
  have h2 : ((st : ℤ) - 1).toNat = st - 1 := by omega
  by_cases h : start = 0
  · simp [h, h1, h2, hn, Int.toNat_natCast, Int.toNat_sub]
  · have h3 : ¬ ((start : ℤ) - 1 < 0) := by omega
    have h4 : ((start : ℤ) - 1).toNat = start - 1 := by omega
    simp [h, h1, h2, h3, h4, hn, Int.toNat_natCast, Int.toNat_sub]
    split <;> rfl

theorem textblockH_data (s : List ℕ) (pos start : ℕ) (stop : Option ℕ)
    {r : List ℕ} {f : Handle}
    (h : textblockH ⟨s, pos⟩ start stop = some (r, f)) : f.data = s := by
  match stop with
  | none =>
    rw [textblockH_none_eq] at h
    cases h
    rfl
  | some 0 =>
    rw [textblockH_some_zero] at h
    cases h
  | some (st + 1) =>
    rw [textblockH_some_eq s pos start (st + 1) (by omega)] at h
    split at h <;> (cases h; rfl)

theorem textblockH_pos_irrel (s : List ℕ) (p q start : ℕ) (stop : Option ℕ) :
    textblockH ⟨s, p⟩ start stop = textblockH ⟨s, q⟩ start stop := by
  match stop with
  | none => rw [textblockH_none_eq, textblockH_none_eq]
  | some 0 => rw [textblockH_some_zero, textblockH_some_zero]
  | some (st + 1) =>
    rw [textblockH_some_eq s p start (st + 1) (by omega),
      textblockH_some_eq s q start (st + 1) (by omega)]

theorem adjStart_aligned (s : List ℕ) (start : ℕ) :
    adjStart s start = 0 ∨ s[adjStart s start - 1]? = some NL ∨
      s.length ≤ adjStart s start := by
  unfold adjStart
  by_cases h0 : start = 0
  · simp [h0]
  · simp only [if_neg h0]
    rcases lineEnd_cases s (start - 1) with ⟨i, -, -, hnl, he⟩ | hlen
    · rw [he]
      simp [hnl]
    · exact Or.inr (Or.inr hlen)

theorem drop_block_aligned (s : List ℕ) (a : ℕ)
    (hbegin : a = 0 ∨ s[a - 1]? = some NL ∨ s.length ≤ a) :
    s.drop a = (s.drop a).take (s.drop a).length ∧
    (s.drop a = [] ∨ a = 0 ∨ s[a - 1]? = some NL) ∧
    (s.drop a = [] ∨ (s.drop a).getLast? = some NL ∨
      a + (s.drop a).length = s.length) := by
  refine ⟨(List.take_length _).symm, ?_, ?_⟩
  · rcases hbegin with h | h | h
    · exact Or.inr (Or.inl h)
    · exact Or.inr (Or.inr h)
    · exact Or.inl (List.drop_eq_nil_of_le h)
  · by_cases hle : s.length ≤ a
    · exact Or.inl (List.drop_eq_nil_of_le hle)
    · refine Or.inr (Or.inr ?_)
      rw [List.length_drop]
      omega

/-! ### Claim theorems for `textblock` -/

/-- C1: for every byte stream and every request with `start >= 0` and
`stop` either `None` or `>= start`, the block returned by `textblock`
occurs contiguously in the stream at some offset `a`, begins at a line
start (`a = 0` or the byte before `a` is a newline) and ends immediately
after a line terminator or at end-of-stream; hence no line of the stream
is split across either boundary of the returned block. -/
theorem textblock_line_aligned (s : List ℕ) (start : ℕ) (stop : Option ℕ)
    (hstop : ∀ st ∈ stop, start ≤ st) {r : List ℕ}
    (h : textblock s start stop = some r) :
    ∃ a, r = (s.drop a).take r.length ∧
      (r = [] ∨ a = 0 ∨ s[a - 1]? = some NL) ∧
      (r = [] ∨ r.getLast? = some NL ∨ a + r.length = s.length) := by
  have hbegin := adjStart_aligned s start
  unfold textblock at h
  match stop with
  | none =>
    rw [textblockH_none_eq] at h
    simp only [Option.map_some', Option.some.injEq] at h
    subst h
    exact ⟨adjStart s start, drop_block_aligned s _ hbegin⟩
  | some 0 =>
    rw [textblockH_some_zero] at h
    cases h
  | some (st + 1) =>
    rw [textblockH_some_eq s 0 start (st + 1) (by omega)] at h
    simp only [Nat.add_sub_cancel] at h
    split at h
    · simp only [Option.map_some', Option.some.injEq] at h
      subst h
      exact ⟨adjStart s start, drop_block_aligned s _ hbegin⟩
    · rename_i hc
      have hae : adjStart s start ≤ lineEnd s st := by omega
      simp only [Option.map_some', Option.some.injEq] at h
      set a := adjStart s start with ha
      set e := lineEnd s st with he
      subst h
      refine ⟨a, ?_, ?_, ?_⟩
      · rw [List.take_eq_take]
        rw [List.length_take, List.length_drop]
        omega
      · rcases hbegin with h | h | h
        · exact Or.inr (Or.inl h)
        · exact Or.inr (Or.inr h)
        · left
          rw [List.drop_eq_nil_of_le h]
          simp
      · rcases lineEnd_cases s st with ⟨i, -, hilen, hnl, hei⟩ | hlen
        · rw [← he] at hei
          by_cases haeq : e ≤ a
          · left
            have : e - a = 0 := by omega
            rw [this]
            simp
          · right; left
            have hrl : ((s.drop a).take (e - a)).length = e - a := by
              rw [List.length_take, List.length_drop]
              omega
            rw [List.getLast?_eq_getElem?, hrl]
            rw [List.getElem?_take]
            rw [if_pos (by omega)]
            rw [List.getElem?_drop]
            have : a + (e - a - 1) = i := by omega
            rw [this]
            exact hnl
        · rw [← he] at hlen
          have : s.drop a = (s.drop a).take (e - a) := by
            rw [List.take_of_length_le]
            rw [List.length_drop]
            omega
          rw [← this]
          exact (drop_block_aligned s a hbegin).2.2

/-- C1 witness: the block guarantee instantiated on the docstring stream
with request `(1, 10)`. -/
theorem textblock_line_aligned_witness :
    ∃ a, ([52, 53, 54, 10, 55, 56, 57, 10] : List ℕ) =
        (exStream.drop a).take ([52, 53, 54, 10, 55, 56, 57, 10] : List ℕ).length ∧
      (([52, 53, 54, 10, 55, 56, 57, 10] : List ℕ) = [] ∨ a = 0 ∨
        exStream[a - 1]? = some NL) ∧
      (([52, 53, 54, 10, 55, 56, 57, 10] : List ℕ) = [] ∨
        ([52, 53, 54, 10, 55, 56, 57, 10] : List ℕ).getLast? = some NL ∨
        a + ([52, 53, 54, 10, 55, 56, 57, 10] : List ℕ).length = exStream.length) :=
  textblock_line_aligned exStream 1 (some 10) (by decide) (by decide)

/-- C2: on the docstring stream `"123\n456\n789\nabc"`,
`textblock(stream, 1, 10)` returns exactly the 8 bytes `"456\n789\n"`. -/
theorem textblock_docstring_example :
    textblock exStream 1 (some 10) =
      some [52, 53, 54, 10, 55, 56, 57, 10] := by decide

/-- C7 counterexample: at `start = stop = 0` the claim fails: `textblock`
does not return the empty byte string but raises (Python executes
`stop -= 1; file.seek(stop)`, a seek to `-1`), modelled as `none`. -/
theorem textblock_start_eq_stop_zero_raises :
    textblock exStream 0 (some 0) = none := by decide

/-- C7 amended: for every stream and every request with
`start = stop >= 1`, `textblock` returns the empty byte string; at
`start = stop = 0` the call instead raises on the negative seek. -/
theorem textblock_start_eq_stop_empty (s : List ℕ) (k : ℕ) (hk : 1 ≤ k) :
    textblock s k (some k) = some [] := by
  unfold textblock
  rw [textblockH_some_eq s 0 k k hk]
  have ha : adjStart s k = lineEnd s (k - 1) := by
    unfold adjStart
    rw [if_neg (by omega)]
  rw [ha]
  rw [if_neg (by omega)]
  simp

/-- C7 amended witness: at `start = stop = 3` on the docstring stream. -/
theorem textblock_start_eq_stop_empty_witness :
    textblock exStream 3 (some 3) = some [] :=
  textblock_start_eq_stop_empty exStream 3 (by decide)

/-- C8 counterexample: the empty stream has length 0, the request
`(start, stop) = (0, 0)` lies at end-of-stream with `stop >= start`, yet
`textblock` raises (negative seek), modelled as `none`, instead of
returning the remaining (empty) bytes. -/
theorem textblock_past_end_raises_at_zero :
    ([] : List ℕ).length ≤ 0 ∧ textblock [] 0 (some 0) = none :=
  ⟨Nat.le_refl 0, by decide⟩

/-- C8 amended: a request at or beyond end-of-stream (`start >= L`,
`stop` either `None` or `>= start`) returns whatever bytes remain rather
than raising, except in the single case `stop = 0` (possible here only
for the empty stream), where the code seeks to `-1` and raises. -/
theorem textblock_past_end_no_error (s : List ℕ) (start : ℕ)
    (stop : Option ℕ) (hL : s.length ≤ start)
    (hstop : stop = none ∨ ∃ st, stop = some st ∧ start ≤ st ∧ 1 ≤ st) :
    ∃ r, textblock s start stop = some r := by
  unfold textblock
  rcases hstop with rfl | ⟨st, rfl, -, hst⟩
  · rw [textblockH_none_eq]
    exact ⟨_, rfl⟩
  · rw [textblockH_some_eq s 0 start st hst]
    split
    · exact ⟨_, rfl⟩
    · exact ⟨_, rfl⟩

/-- C8 amended witness: request `(20, 25)` on the 15-byte docstring
stream. -/
theorem textblock_past_end_no_error_witness :
    ∃ r, textblock exStream 20 (some 25) = some r :=
  textblock_past_end_no_error exStream 20 (some 25) (by decide)
    (Or.inr ⟨25, rfl, by omega, by omega⟩)

/-- C9: calling `textblock` twice in succession with identical arguments
on the same unmodified stream — the second call starting from whatever
handle position the first call left — returns identical byte strings. -/
theorem textblock_idempotent (s : List ℕ) (start : ℕ) (stop : Option ℕ)
    {r1 r2 : List ℕ} {f1 f2 : Handle}
    (h1 : textblockH ⟨s, 0⟩ start stop = some (r1, f1))
    (h2 : textblockH f1 start stop = some (r2, f2)) : r1 = r2 := by
  have hd : f1.data = s := textblockH_data s 0 start stop h1
  obtain ⟨d, p⟩ := f1
  simp only at hd
  subst hd
  rw [textblockH_pos_irrel _ p 0 start stop] at h2
  rw [h1] at h2
  cases h2
  rfl

/-- C9 witness: two successive identical calls on the docstring stream;
the first leaves the handle at position 12, the second starts there and
returns the same 8 bytes. -/
theorem textblock_idempotent_witness :
    ([52, 53, 54, 10, 55, 56, 57, 10] : List ℕ) =
      [52, 53, 54, 10, 55, 56, 57, 10] :=
  @textblock_idempotent exStream 1 (some 10)
    [52, 53, 54, 10, 55, 56, 57, 10] [52, 53, 54, 10, 55, 56, 57, 10]
    ⟨exStream, 12⟩ ⟨exStream, 12⟩ (by decide) (by decide)

/-- C4 counterexample: `"bz2"` is not in the codec registry, yet
`textblock` on a path with `compression = "bz2"` does not fail — the
lookup `opens.get(compression, open)` falls back to the plain opener, the
file is opened, and a block is returned. -/
theorem textblock_unknown_codec_opens_plain :
    opens "bz2" = none ∧
      textblockPath (fun _ => some exStream) id "myfile.txt" 1 (some 10)
        (some "bz2") = some [52, 53, 54, 10, 55, 56, 57, 10] :=
  ⟨by decide, by decide⟩

/-- C4 amended: a codec name absent from the registry is not an error:
`textblock` behaves exactly as with no compression argument, opening the
file with plain `open`. -/
theorem textblock_unknown_codec_fallback
    (fs : String → Option (List ℕ)) (gunzip : List ℕ → List ℕ)
    (path : String) (start : ℕ) (stop : Option ℕ) (c : String)
    (hc : opens c = none) :
    textblockPath fs gunzip path start stop (some c) =
      textblockPath fs gunzip path start stop none := by
  simp only [textblockPath, myopen, hc, Option.getD_none]

/-- C4 amended witness: the unknown codec `"bz2"` behaves as plain
`open` on a concrete one-file filesystem. -/
theorem textblock_unknown_codec_fallback_witness :
    textblockPath (fun _ => some exStream) id "myfile.txt" 1 (some 10)
        (some "bz2") =
      textblockPath (fun _ => some exStream) id "myfile.txt" 1 (some 10)
        none :=
  textblock_unknown_codec_fallback (fun _ => some exStream) id
    "myfile.txt" 1 (some 10) "bz2" (by decide)

/-! ### Claim theorems for `pseudorandom`: validation and purity -/

theorem cumsum_getLastD (p : List ℚ) : (cumsum p).getLastD 0 = p.sum := by
  unfold cumsum
  rw [List.range_succ, List.map_append]
  simp [List.getLastD_concat, List.take_length]

/-- C3: for every count `n`, probability vector `p` passing validation
and integer seed `key`, `pseudorandom` is a pure function of
`(n, p, key)`: its output does not depend on the global numpy random
state `g`, it leaves `g` untouched (it reads no global random state), and
a second call right after the first (i.e. in the call history the first
produces) returns the identical sequence. -/
theorem pseudorandom_state_eq (g g' : ℕ) (n : ℕ) (p : List ℚ) (key : ℤ) :
    pseudorandom g n p key = ((pseudorandom g' n p key).1, g) := by
  simp only [pseudorandom]
  by_cases h : allclose 1 ((cumsum p).getLastD 0) ∧ p.length < 256
  · rw [if_pos h, if_pos h]
  · rw [if_neg h, if_neg h]

theorem pseudorandom_pure (g1 g2 n : ℕ) (p : List ℚ) (key : ℤ)
    (hval : allclose 1 ((cumsum p).getLastD 0) ∧ p.length < 256) :
    (pseudorandom g1 n p key).1 = (pseudorandom g2 n p key).1 ∧
    (pseudorandom g1 n p key).2 = g1 ∧
    (pseudorandom (pseudorandom g1 n p key).2 n p key).1 =
      (pseudorandom g1 n p key).1 := by
  have he : ∀ g g' : ℕ, pseudorandom g n p key = ((pseudorandom g' n p key).1, g) :=
    fun g g' => pseudorandom_state_eq g g' n p key
  refine ⟨?_, ?_, ?_⟩ <;> simp only [he g1 0, he g2 0]

unseal Rat.add Rat.mul Rat.inv Rat.sub in
/-- C3 witness: two calls with `(n, p, key) = (2, [1/2, 1/2], 123)` from
different global states agree and leave the global state alone. -/
theorem pseudorandom_pure_witness :
    (pseudorandom 0 2 [1/2, 1/2] 123).1 =
        (pseudorandom 7 2 [1/2, 1/2] 123).1 ∧
    (pseudorandom 0 2 [1/2, 1/2] 123).2 = 0 ∧
    (pseudorandom (pseudorandom 0 2 [1/2, 1/2] 123).2 2 [1/2, 1/2] 123).1 =
      (pseudorandom 0 2 [1/2, 1/2] 123).1 :=
  pseudorandom_pure 0 7 2 [1/2, 1/2] 123 (by decide)

unseal Rat.add Rat.mul Rat.inv Rat.sub in
/-- C5 counterexample: `p = [-1/2, 3/2]` contains a negative probability
and sums to 1, yet `pseudorandom` is not rejected: the code validates
only the cumulative sum and the category count, never non-negativity,
and happily returns a sample (every draw lands in the second bucket
`[-1/2, 1)`). -/
theorem pseudorandom_negative_prob_accepted :
    (-(1:ℚ)/2 < 0) ∧ ([-(1:ℚ)/2, 3/2].sum = 1) ∧
      (pseudorandom 0 1 [-(1:ℚ)/2, 3/2] 0).1 = some [some 1] :=
  ⟨by decide, by decide, by decide⟩

/-- C5 amended: `pseudorandom(n, p, key)` fails (assertion error) exactly
when the sum of `p` deviates from 1 beyond the `allclose` tolerance or
the number of categories is >= 256; negative entries are not checked and
do not cause rejection. -/
theorem pseudorandom_validation (g n : ℕ) (p : List ℚ) (key : ℤ) :
    (pseudorandom g n p key).1 = none ↔
      ¬ allclose 1 p.sum ∨ 256 ≤ p.length := by
  simp only [pseudorandom, cumsum_getLastD]
  split
  · rename_i h
    constructor
    · intro hnone
      exact absurd hnone (by simp)
    · intro hk
      rcases hk with hk | hk
      · exact absurd h.1 hk
      · exact absurd h.2 (by omega)
  · rename_i h
    constructor
    · intro _
      by_cases hA : allclose 1 p.sum
      · right
        rcases Nat.lt_or_ge p.length 256 with hB | hB
        · exact absurd ⟨hA, hB⟩ h
        · exact hB
      · exact Or.inl hA
    · intro _
      rfl

/-! ### Claim theorems for `pseudorandom`: the int8 output -/

theorem foldl_step_mem (x : ℚ) :
    ∀ (l : List (ℕ × ℚ × ℚ)) (acc : Option ℕ) (i : ℕ),
      l.foldl (fun a e => if e.2.1 ≤ x ∧ x < e.2.2 then some e.1 else a)
          acc = some i →
      acc = some i ∨ ∃ e ∈ l, e.1 = i
  | [], acc, i, h => Or.inl h
  | e :: t, acc, i, h => by
    rw [List.foldl_cons] at h
    rcases foldl_step_mem x t _ i h with h' | ⟨e', he', hei⟩
    · by_cases hc : e.2.1 ≤ x ∧ x < e.2.2
      · rw [if_pos hc] at h'
        cases h'
        exact Or.inr ⟨e, List.mem_cons_self e t, rfl⟩
      · rw [if_neg hc] at h'
        exact Or.inl h'
    · exact Or.inr ⟨e', List.mem_cons_of_mem e he', hei⟩

theorem bucketAssign_lt {cp : List ℚ} {x : ℚ} {i : ℕ}
    (h : bucketAssign cp x = some i) : i + 1 < cp.length := by
  unfold bucketAssign at h
  rcases foldl_step_mem x _ none i h with h' | ⟨e, he, hei⟩
  · cases h'
  · subst hei
    rw [List.enum_eq_zip_range] at he
    have h1 := (List.of_mem_zip he).1
    rw [List.mem_range] at h1
    rw [List.length_zip, List.length_dropLast, List.length_drop] at h1
    omega

theorem cumsum_length (p : List ℚ) : (cumsum p).length = p.length + 1 := by
  unfold cumsum
  rw [List.length_map, List.length_range]

theorem int8_eq_of_le {i : ℕ} (h : i ≤ 127) : int8 i = i := by
  unfold int8
  rw [Int.emod_eq_of_lt (by omega) (by omega)]
  omega

set_option maxRecDepth 40000 in
unseal Rat.add Rat.mul Rat.inv Rat.sub in
/-- C6 counterexample: `p` with 130 categories (first 129 zero, last 1)
passes validation (`k < 256`), the bucket rule assigns index 129, but
storing 129 in the signed 8-bit output wraps it to `-127`: the output
element is negative and differs from its bucket index, refuting "storing
indices up to 254 as int8 never changes their value or sign". -/
theorem pseudorandom_int8_wraps :
    (List.replicate 129 (0:ℚ) ++ [1]).length < 256 ∧
      bucketAssign (cumsum (List.replicate 129 (0:ℚ) ++ [1]))
        ((randomSample 0 1).getD 0 0) = some 129 ∧
      (pseudorandom 0 1 (List.replicate 129 (0:ℚ) ++ [1]) 0).1 =
        some [some (-127)] ∧ (-127 : ℤ) < 0 :=
  ⟨by decide, by decide, by decide, by decide⟩

/-- C6 amended: for every probability vector `p` that passes validation
and has at most 128 categories, the output of `pseudorandom` is exactly
the bucket-rule indices of the draws (each written element equals its
category index, necessarily in `0..k-1` and at most 127), and the int8
storage is the identity on them — value and sign are preserved.  For
`k >= 130`, indices above 127 wrap to negative values. -/
theorem pseudorandom_int8_faithful (g n : ℕ) (p : List ℚ) (key : ℤ)
    (hk : p.length ≤ 128)
    (hval : allclose 1 ((cumsum p).getLastD 0) ∧ p.length < 256) :
    (pseudorandom g n p key).1 =
      some ((randomSample key n).map
        (fun xi => (bucketAssign (cumsum p) xi).map (fun i => (i : ℤ)))) ∧
    ∀ xi i, bucketAssign (cumsum p) xi = some i → i < p.length := by
  have hbound : ∀ (xi : ℚ) i, bucketAssign (cumsum p) xi = some i →
      i < p.length := by
    intro xi i h
    have h1 := bucketAssign_lt h
    rw [cumsum_length] at h1
    omega
  refine ⟨?_, hbound⟩
  simp only [pseudorandom]
  rw [if_pos hval]
  simp only [Option.some.injEq]
  apply List.map_congr_left
  intro xi hxi
  cases hb : bucketAssign (cumsum p) xi with
  | none => simp
  | some i =>
    have hi : i ≤ 127 := by
      have := hbound xi i hb
      omega
    simp [int8_eq_of_le hi]

unseal Rat.add Rat.mul Rat.inv Rat.sub in
/-- C6 amended witness: for `p = [1/2, 1/2]` the single output element is
its bucket index, unchanged by int8 storage. -/
theorem pseudorandom_int8_faithful_witness :
    (pseudorandom 0 1 [(1:ℚ)/2, 1/2] 5).1 =
      some ((randomSample 5 1).map
        (fun xi => (bucketAssign (cumsum [(1:ℚ)/2, 1/2]) xi).map
          (fun i => (i : ℤ)))) ∧
    ∀ xi i, bucketAssign (cumsum [(1:ℚ)/2, 1/2]) xi = some i →
      i < ([(1:ℚ)/2, 1/2]).length :=
  pseudorandom_int8_faithful 0 1 [(1:ℚ)/2, 1/2] 5 (by decide) (by decide)

/-! ### Claim theorems for `pseudorandom`: the bucket partition -/

/-- The first-matching-bucket rule as the spec words it: scan the bucket
list `[cp[i], cp[i+1])` in ascending order and return the index of the
first bucket containing `x`.  Stated separately from the code's
`bucketAssign` (an overwriting loop, hence last match) so the two can be
compared. -/
def firstBucket (cp : List ℚ) (x : ℚ) : Option ℕ :=
  (((cp.dropLast).zip (cp.drop 1)).enum.find?
    (fun e => decide (e.2.1 ≤ x ∧ x < e.2.2))).map (fun e => e.1)

theorem takeSum_exists : ∀ (p : List ℚ) (x : ℚ), (∀ q ∈ p, 0 ≤ q) →
    0 ≤ x → x < p.sum →
    ∃ i, i < p.length ∧ (p.take i).sum ≤ x ∧ x < (p.take (i + 1)).sum
  | [], x, hnn, hx0, hxs => by
    simp only [List.sum_nil] at hxs
    exact absurd (lt_of_le_of_lt hx0 hxs) (lt_irrefl 0)
  | q :: t, x, hnn, hx0, hxs => by
    by_cases hq : x < q
    · refine ⟨0, by simp, by simpa using hx0, ?_⟩
      rw [List.take_succ_cons, List.take_zero, List.sum_cons, List.sum_nil]
      simpa using hq
    · push_neg at hq
      have ht : x - q < t.sum := by
        rw [List.sum_cons] at hxs
        linarith
      obtain ⟨i, hi, h1, h2⟩ := takeSum_exists t (x - q)
        (fun r hr => hnn r (List.mem_cons_of_mem q hr)) (by linarith) ht
      refine ⟨i + 1, by simpa using hi, ?_, ?_⟩
      · rw [List.take_succ_cons, List.sum_cons]
        linarith
      · rw [List.take_succ_cons, List.sum_cons]
        linarith

theorem takeSum_mono (p : List ℚ) (hnn : ∀ q ∈ p, 0 ≤ q) {i j : ℕ}
    (hij : i ≤ j) : (p.take i).sum ≤ (p.take j).sum := by
  have hj : j = i + (j - i) := by omega
  rw [hj, List.take_add, List.sum_append]
  have h2 : 0 ≤ ((p.drop i).take (j - i)).sum :=
    List.sum_nonneg (fun r hr =>
      hnn r (List.mem_of_mem_drop (List.mem_of_mem_take hr)))
  linarith

theorem takeSum_unique (p : List ℚ) (hnn : ∀ q ∈ p, 0 ≤ q) {x : ℚ}
    {i j : ℕ} (hi : (p.take i).sum ≤ x ∧ x < (p.take (i + 1)).sum)
    (hj : (p.take j).sum ≤ x ∧ x < (p.take (j + 1)).sum) : i = j := by
  by_contra hne
  rcases Nat.lt_or_ge i j with h | h
  · have hm := takeSum_mono p hnn (show i + 1 ≤ j from h)
    have := hi.2
    have := hj.1
    linarith
  · have hj' : j < i := by omega
    have hm := takeSum_mono p hnn (show j + 1 ≤ i from hj')
    have := hj.2
    have := hi.1
    linarith

theorem zip_self_map {α β : Type} (g : α → β) :
    ∀ l : List α, l.zip (l.map g) = l.map (fun a => (a, g a))
  | [] => rfl
  | a :: t => by
    rw [List.map_cons, List.zip_cons_cons, zip_self_map g t, List.map_cons]

theorem cumsum_pairs (p : List ℚ) :
    ((cumsum p).dropLast.zip ((cumsum p).drop 1)).enum =
      (List.range p.length).map
        (fun i => (i, (p.take i).sum, (p.take (i + 1)).sum)) := by
  unfold cumsum
  have h1 : ((List.range (p.length + 1)).map
        (fun i => (p.take i).sum)).dropLast =
      (List.range p.length).map (fun i => (p.take i).sum) := by
    rw [List.range_succ, List.map_append, List.map_singleton,
      List.dropLast_concat]
  have h2 : ((List.range (p.length + 1)).map
        (fun i => (p.take i).sum)).drop 1 =
      (List.range p.length).map (fun i => (p.take (i + 1)).sum) := by
    rw [List.range_succ_eq_map, List.map_cons, List.drop_succ_cons,
      List.drop_zero, List.map_map]
    rfl
  rw [h1, h2, List.zip_map', List.enum_eq_zip_range, List.length_map,
    List.length_range, zip_self_map]

theorem bucketAssign_eq_range (p : List ℚ) (x : ℚ) :
    bucketAssign (cumsum p) x =
      (List.range p.length).foldl
        (fun a i => if (p.take i).sum ≤ x ∧ x < (p.take (i + 1)).sum
          then some i else a) none := by
  unfold bucketAssign
  rw [cumsum_pairs, List.foldl_map]

theorem firstBucket_eq_range (p : List ℚ) (x : ℚ) :
    firstBucket (cumsum p) x =
      (List.range p.length).find?
        (fun i => decide ((p.take i).sum ≤ x ∧ x < (p.take (i + 1)).sum)) := by
  unfold firstBucket
  rw [cumsum_pairs, List.find?_map, Option.map_map]
  show Option.map
      ((fun e : ℕ × ℚ × ℚ => e.1) ∘
        fun i => (i, (p.take i).sum, (p.take (i + 1)).sum))
      ((List.range p.length).find?
        (fun i => decide ((p.take i).sum ≤ x ∧ x < (p.take (i + 1)).sum))) =
    (List.range p.length).find?
      (fun i => decide ((p.take i).sum ≤ x ∧ x < (p.take (i + 1)).sum))
  cases (List.range p.length).find?
      (fun i => decide ((p.take i).sum ≤ x ∧ x < (p.take (i + 1)).sum)) with
  | none => rfl
  | some i => rfl

theorem foldl_last_none (P : ℕ → Prop) [DecidablePred P] :
    ∀ (l : List ℕ) (acc : Option ℕ), (∀ j ∈ l, ¬ P j) →
      l.foldl (fun a j => if P j then some j else a) acc = acc
  | [], acc, h => rfl
  | a :: t, acc, h => by
    rw [List.foldl_cons, if_neg (h a (List.mem_cons_self a t))]
    exact foldl_last_none P t acc (fun j hj => h j (List.mem_cons_of_mem a hj))

theorem foldl_unique_match (P : ℕ → Prop) [DecidablePred P] :
    ∀ (l : List ℕ) (acc : Option ℕ) (i : ℕ),
      (∀ j ∈ l, P j → j = i) → i ∈ l → P i →
      l.foldl (fun a j => if P j then some j else a) acc = some i
  | [], acc, i, huniq, hmem, hPi => absurd hmem (List.not_mem_nil i)
  | a :: t, acc, i, huniq, hmem, hPi => by
    rw [List.foldl_cons]
    by_cases hPa : P a
    · have hai : a = i := huniq a (List.mem_cons_self a t) hPa
      subst hai
      by_cases hit : a ∈ t
      · exact foldl_unique_match P t _ a
          (fun j hj hPj => huniq j (List.mem_cons_of_mem a hj) hPj) hit hPa
      · rw [if_pos hPa]
        apply foldl_last_none
        intro j hj hPj
        have hji := huniq j (List.mem_cons_of_mem a hj) hPj
        subst hji
        exact hit hj
    · rw [if_neg hPa]
      have hit : i ∈ t := by
        rcases List.mem_cons.1 hmem with rfl | h
        · exact absurd hPi hPa
        · exact h
      exact foldl_unique_match P t acc i
        (fun j hj hPj => huniq j (List.mem_cons_of_mem a hj) hPj) hit hPi

theorem find?_unique_match (p : ℕ → Bool) :
    ∀ (l : List ℕ) (i : ℕ), (∀ j ∈ l, p j = true → j = i) → i ∈ l →
      p i = true → l.find? p = some i
  | [], i, huniq, hmem, hPi => absurd hmem (List.not_mem_nil i)
  | a :: t, i, huniq, hmem, hPi => by
    by_cases hPa : p a = true
    · rw [List.find?_cons_of_pos t hPa]
      exact congrArg some (huniq a (List.mem_cons_self a t) hPa)
    · rw [List.find?_cons_of_neg t hPa]
      have hit : i ∈ t := by
        rcases List.mem_cons.1 hmem with rfl | h
        · exact absurd hPi hPa
        · exact h
      exact find?_unique_match p t i
        (fun j hj hPj => huniq j (List.mem_cons_of_mem a hj) hPj) hit hPi

theorem randomSample_bounds {key : ℤ} {n : ℕ} {xi : ℚ}
    (h : xi ∈ randomSample key n) : 0 ≤ xi ∧ xi < 1 := by
  unfold randomSample at h
  rw [List.mem_map] at h
  obtain ⟨j, hj, rfl⟩ := h
  constructor
  · positivity
  · rw [div_lt_one (by norm_num)]
    exact_mod_cast Nat.mod_lt _ (by norm_num)

/-- C10: if every entry of `p` is non-negative, the cumulative sum
reaches exactly 1, and `k <= 128`, then every draw `x` in `[0,1)` lies in
exactly one half-open bucket `[cp[i], cp[i+1))`; the code's ascending
overwrite loop coincides with the first-matching-bucket rule (the buckets
are pairwise disjoint, so at most one write hits each cell); and every
element of `pseudorandom`'s output array is written (no cell keeps the
uninitialized contents of `np.empty`) and holds an index in `0..k-1`. -/
theorem pseudorandom_buckets_partition (p : List ℚ)
    (hnn : ∀ q ∈ p, 0 ≤ q) (hsum : p.sum = 1) (hk : p.length ≤ 128) :
    (∀ x : ℚ, 0 ≤ x → x < 1 →
      (∃! i, i < p.length ∧ (p.take i).sum ≤ x ∧ x < (p.take (i + 1)).sum) ∧
      bucketAssign (cumsum p) x = firstBucket (cumsum p) x ∧
      ∃ i, bucketAssign (cumsum p) x = some i ∧ i < p.length) ∧
    ∀ g n key r, (pseudorandom g n p key).1 = some r →
      ∀ o ∈ r, ∃ i, i < p.length ∧ o = some (i : ℤ) := by
  have hcore : ∀ x : ℚ, 0 ≤ x → x < 1 →
      ∃ i, i < p.length ∧ (p.take i).sum ≤ x ∧ x < (p.take (i + 1)).sum ∧
        bucketAssign (cumsum p) x = some i ∧
        firstBucket (cumsum p) x = some i := by
    intro x hx0 hx1
    obtain ⟨i, hi, h1, h2⟩ := takeSum_exists p x hnn hx0 (hsum ▸ hx1)
    have huniq : ∀ j, (p.take j).sum ≤ x → x < (p.take (j + 1)).sum →
        j = i := by
      intro j hj1 hj2
      exact takeSum_unique p hnn ⟨hj1, hj2⟩ ⟨h1, h2⟩
    refine ⟨i, hi, h1, h2, ?_, ?_⟩
    · rw [bucketAssign_eq_range]
      apply foldl_unique_match
      · intro j hj hPj
        exact huniq j hPj.1 hPj.2
      · rw [List.mem_range]
        exact hi
      · exact ⟨h1, h2⟩
    · rw [firstBucket_eq_range]
      apply find?_unique_match
      · intro j hj hPj
        rw [decide_eq_true_eq] at hPj
        exact huniq j hPj.1 hPj.2
      · rw [List.mem_range]
        exact hi
      · rw [decide_eq_true_eq]
        exact ⟨h1, h2⟩
  constructor
  · intro x hx0 hx1
    obtain ⟨i, hi, h1, h2, hba, hfb⟩ := hcore x hx0 hx1
    refine ⟨⟨i, ⟨hi, h1, h2⟩, ?_⟩, by rw [hba, hfb], ⟨i, hba, hi⟩⟩
    intro j hj
    exact takeSum_unique p hnn ⟨hj.2.1, hj.2.2⟩ ⟨h1, h2⟩
  · intro g n key r hr o ho
    have hval : allclose 1 ((cumsum p).getLastD 0) ∧ p.length < 256 := by
      rw [cumsum_getLastD, hsum]
      refine ⟨?_, by omega⟩
      unfold allclose
      norm_num
    simp only [pseudorandom] at hr
    rw [if_pos hval] at hr
    simp only [Option.some.injEq] at hr
    subst hr
    rw [List.mem_map] at ho
    obtain ⟨xi, hxi, rfl⟩ := ho
    obtain ⟨hx0, hx1⟩ := randomSample_bounds hxi
    obtain ⟨i, hi, -, -, hba, -⟩ := hcore xi hx0 hx1
    refine ⟨i, hi, ?_⟩
    rw [hba]
    simp [int8_eq_of_le (show i ≤ 127 by omega)]

unseal Rat.add Rat.mul Rat.inv Rat.sub in
/-- C10 witness: the bucket partition and no-uninitialized-cell
guarantees instantiated at `p = [1/2, 1/2]`. -/
theorem pseudorandom_buckets_partition_witness :
    (∀ x : ℚ, 0 ≤ x → x < 1 →
      (∃! i, i < ([(1:ℚ)/2, 1/2]).length ∧
        (([(1:ℚ)/2, 1/2]).take i).sum ≤ x ∧
        x < (([(1:ℚ)/2, 1/2]).take (i + 1)).sum) ∧
      bucketAssign (cumsum [(1:ℚ)/2, 1/2]) x =
        firstBucket (cumsum [(1:ℚ)/2, 1/2]) x ∧
      ∃ i, bucketAssign (cumsum [(1:ℚ)/2, 1/2]) x = some i ∧
        i < ([(1:ℚ)/2, 1/2]).length) ∧
    ∀ g n key r, (pseudorandom g n [(1:ℚ)/2, 1/2] key).1 = some r →
      ∀ o ∈ r, ∃ i, i < ([(1:ℚ)/2, 1/2]).length ∧ o = some (i : ℤ) :=
  pseudorandom_buckets_partition [(1:ℚ)/2, 1/2] (by decide) (by decide)
    (by decide)
